import Mathlib

/-!
Shallow embedding of the rust-base58 library (src/lib.rs and the legacy
duplicate src/base58.rs).  Strings are modelled as lists of byte values
(`List Nat`, each element < 256 in the Rust types); `BigUint` is modelled
as `Nat`.  The bounded while-loops of the source are modelled with an
explicit fuel argument large enough for every input expressible in the
Rust types (justified by lemmas below).
-/

/-- Bytes of the constant `BTC_ALPHA` from src/lib.rs:
"123456789ABCDEFGHJKLMNPQRSTUVWXYZabcdefghijkmnopqrstuvwxyz". -/
def BTC_ALPHA : List Nat :=
  [49, 50, 51, 52, 53, 54, 55, 56, 57,
   65, 66, 67, 68, 69, 70, 71, 72, 74, 75, 76, 77, 78, 80, 81, 82, 83,
   84, 85, 86, 87, 88, 89, 90,
   97, 98, 99, 100, 101, 102, 103, 104, 105, 106, 107, 109, 110, 111,
   112, 113, 114, 115, 116, 117, 118, 119, 120, 121, 122]

/-- Bytes of the constant `FLICKR_ALPHA` from src/lib.rs:
"123456789abcdefghijkmnopqrstuvwxyzABCDEFGHJKLMNPQRSTUVWXYZ". -/
def FLICKR_ALPHA : List Nat :=
  [49, 50, 51, 52, 53, 54, 55, 56, 57,
   97, 98, 99, 100, 101, 102, 103, 104, 105, 106, 107, 109, 110, 111,
   112, 113, 114, 115, 116, 117, 118, 119, 120, 121, 122,
   65, 66, 67, 68, 69, 70, 71, 72, 74, 75, 76, 77, 78, 80, 81, 82, 83,
   84, 85, 86, 87, 88, 89, 90]

/-- The error enum `FromBase58Error` of src/lib.rs.  The 4-byte arrays of
the checksum variant are modelled as byte lists. -/
inductive FromBase58Error where
  | InvalidBase58Byte : Nat → Nat → FromBase58Error
  | InvalidBase58Checksum : List Nat → List Nat → FromBase58Error
  | NoBase58Checksum : FromBase58Error
deriving Repr, DecidableEq

/-- `BigUint::from_bytes_be`: interpret a byte list as a big-endian
natural number. -/
def fromBytesBE (l : List Nat) : Nat :=
  l.foldl (fun acc b => acc * 256 + b) 0

/-- One generic repeated-division loop, little-endian digit extraction in
an arbitrary radix, with explicit fuel.  It embeds both the `while x > 0`
loop of `to_base58` (radix 58) and `BigUint::to_bytes_be` (radix 256);
`radixDigitsLE_eq_digits` below shows that with sufficient fuel it is
exactly `Nat.digits`. -/
def radixDigitsLE (base : Nat) : Nat → Nat → List Nat
  | 0, _ => []
  | fuel + 1, x => if x = 0 then [] else x % base :: radixDigitsLE base fuel (x / base)

/-- The right-to-left accumulation loop of `from_base58` in src/lib.rs:
`for (idx, &byte) in self.iter().enumerate().rev()`, looking each byte up
in `BTC_ALPHA` and accumulating `x + i * rad_mult`, with
`rad_mult` multiplied by 58 after each step; the first missing byte (in
scan order) aborts with `InvalidBase58Byte(byte, idx)`. -/
def decodeScan : List (Nat × Nat) → Nat → Nat → Except FromBase58Error Nat
  | [], x, _ => .ok x
  | (idx, byte) :: rest, x, radMult =>
    match BTC_ALPHA.findIdx? (fun c => c == byte) with
    | some i => decodeScan rest (x + i * radMult) (radMult * 58)
    | none => .error (.InvalidBase58Byte byte idx)

/-- `<[u8] as FromBase58>::from_base58` from src/lib.rs.  The scan over
`self.iter().enumerate().rev()` is `decodeScan` on `self.enum.reverse`;
then one `0` byte is pushed per leading `BTC_ALPHA[0]` byte of the input,
and if `x > 0` its big-endian bytes (`x.to_bytes_be()`) are appended.
The fuel `self.length + 1` suffices because `x < 58 ^ self.length`. -/
def from_base58 (self : List Nat) : Except FromBase58Error (List Nat) :=
  match decodeScan self.enum.reverse 0 1 with
  | .error e => .error e
  | .ok x =>
    let zeros := (self.takeWhile (fun b => b == BTC_ALPHA.getD 0 0)).map (fun _ => 0)
    .ok (zeros ++ if 0 < x then (radixDigitsLE 256 (self.length + 1) x).reverse else [])

/-- 2 ^ 32, the modulus of the 32-bit words of the hash collaborator. -/
def M32 : Nat := 4294967296

/-- Right rotation of a 32-bit word. -/
def rotr (n x : Nat) : Nat := ((x >>> n) ||| (x <<< (32 - n))) % M32

/-- Modelled from the spec: the SHA-256 round constants (FIPS 180-4) of
the external hash collaborator (the `sha2` crate, not part of src/). -/
def shaK : List Nat :=
  [1116352408, 1899447441, 3049323471, 3921009573, 961987163, 1508970993,
   2453635748, 2870763221, 3624381080, 310598401, 607225278, 1426881987,
   1925078388, 2162078206, 2614888103, 3248222580, 3835390401, 4022224774,
   264347078, 604807628, 770255983, 1249150122, 1555081692, 1996064986,
   2554220882, 2821834349, 2952996808, 3210313671, 3336571891, 3584528711,
   113926993, 338241895, 666307205, 773529912, 1294757372, 1396182291,
   1695183700, 1986661051, 2177026350, 2456956037, 2730485921, 2820302411,
   3259730800, 3345764771, 3516065817, 3600352804, 4094571909, 275423344,
   430227734, 506948616, 659060556, 883997877, 958139571, 1322822218,
   1537002063, 1747873779, 1955562222, 2024104815, 2227730452, 2361852424,
   2428436474, 2756734187, 3204031479, 3329325298]

/-- Modelled from the spec: the SHA-256 initial hash state (FIPS 180-4). -/
def shaH0 : List Nat :=
  [1779033703, 3144134277, 1013904242, 2773480762, 1359893119, 2600822924,
   528734635, 1541459225]

/-- Fixed-width big-endian byte expansion of a natural number. -/
def beBytes (w n : Nat) : List Nat :=
  ((List.range w).reverse).map (fun i => n / 256 ^ i % 256)

/-- Modelled from the spec: SHA-256 message padding. -/
def sha256Pad (msg : List Nat) : List Nat :=
  msg ++ 128 :: List.replicate ((120 - (msg.length + 1) % 64) % 64) 0
      ++ beBytes 8 (8 * msg.length)

/-- Split a byte list into successive 64-byte chunks (fueled). -/
def sha256Chunks : Nat → List Nat → List (List Nat)
  | 0, _ => []
  | _ + 1, [] => []
  | fuel + 1, a :: l => (a :: l).take 64 :: sha256Chunks fuel ((a :: l).drop 64)

/-- The sixteen 32-bit big-endian words of a 64-byte chunk. -/
def shaWords (chunk : List Nat) : List Nat :=
  (List.range 16).map (fun i => fromBytesBE ((chunk.drop (4 * i)).take 4))

/-- Modelled from the spec: the SHA-256 message schedule, extending the
sixteen chunk words to sixty-four. -/
def shaSchedule (ws : List Nat) : List Nat :=
  (List.range 48).foldl
    (fun w i =>
      w ++ [(((rotr 17 (w.getD (i + 14) 0)) ^^^ (rotr 19 (w.getD (i + 14) 0))
                ^^^ ((w.getD (i + 14) 0) >>> 10))
             + w.getD (i + 9) 0
             + ((rotr 7 (w.getD (i + 1) 0)) ^^^ (rotr 18 (w.getD (i + 1) 0))
                ^^^ ((w.getD (i + 1) 0) >>> 3))
             + w.getD i 0) % M32])
    ws

/-- Modelled from the spec: one SHA-256 compression round. -/
def shaRound (st : List Nat) (kw : Nat × Nat) : List Nat :=
  let a := st.getD 0 0
  let b := st.getD 1 0
  let c := st.getD 2 0
  let d := st.getD 3 0
  let e := st.getD 4 0
  let f := st.getD 5 0
  let g := st.getD 6 0
  let h := st.getD 7 0
  let s1 := (rotr 6 e) ^^^ (rotr 11 e) ^^^ (rotr 25 e)
  let ch := (e &&& f) ^^^ (((M32 - 1) ^^^ e) &&& g)
  let temp1 := (h + s1 + ch + kw.1 + kw.2) % M32
  let s0 := (rotr 2 a) ^^^ (rotr 13 a) ^^^ (rotr 22 a)
  let maj := (a &&& b) ^^^ (a &&& c) ^^^ (b &&& c)
  let temp2 := (s0 + maj) % M32
  [(temp1 + temp2) % M32, a, b, c, (d + temp1) % M32, e, f, g]

/-- Modelled from the spec: SHA-256 compression of one 64-byte chunk. -/
def sha256Compress (h : List Nat) (chunk : List Nat) : List Nat :=
  let w := shaSchedule (shaWords chunk)
  let st := (shaK.zip w).foldl shaRound h
  (h.zip st).map (fun p => (p.1 + p.2) % M32)

/-- Modelled from the spec: the external hash collaborator
`Hash(bytes) -> 32-byte digest`, semantically SHA-256 (provided by the
`sha2` crate, which is not part of src/). -/
def sha256 (msg : List Nat) : List Nat :=
  let padded := sha256Pad msg
  let final := (sha256Chunks padded.length padded).foldl sha256Compress shaH0
  (final.map (beBytes 4)).flatten

/-- `<[u8] as FromBase58>::from_base58_check` from src/lib.rs. -/
def from_base58_check (self : List Nat) : Except FromBase58Error (List Nat) :=
  match from_base58 self with
  | .error e => .error e
  | .ok decoded =>
    let length := decoded.length
    if length < 4 then .error .NoBase58Checksum
    else
      let content := decoded.take (length - 4)
      let check := decoded.drop (length - 4)
      let expected := (sha256 (sha256 content)).take 4
      if check ≠ expected then .error (.InvalidBase58Checksum check expected)
      else .ok content

/-- `<[u8] as ToBase58>::to_base58` from src/lib.rs: the `while x > 0`
division loop pushes `BTC_ALPHA[x % 58]` per iteration, then one
`BTC_ALPHA[0]` is pushed per leading `0` byte of the input, and the
accumulated vector is reversed.  The fuel `2 * self.length + 1` suffices
because `x < 256 ^ self.length ≤ 58 ^ (2 * self.length)`. -/
def to_base58 (self : List Nat) : List Nat :=
  let x := fromBytesBE self
  let ans := (radixDigitsLE 58 (2 * self.length + 1) x).map (fun rem => BTC_ALPHA.getD rem 0)
  let ans := ans ++ (self.takeWhile (fun b => b == 0)).map (fun _ => BTC_ALPHA.getD 0 0)
  ans.reverse

/-- `<[u8] as ToBase58>::to_base58_check` from src/lib.rs. -/
def to_base58_check (self : List Nat) : List Nat :=
  let first_hash := sha256 self
  let second_hash := sha256 first_hash
  let with_check := self ++ second_hash.take 4
  to_base58 with_check

namespace Legacy

/-- Bytes of the static `BTC_ALPHA` from the legacy src/base58.rs (same
58 characters as the one in src/lib.rs). -/
def BTC_ALPHA : List Nat :=
  [49, 50, 51, 52, 53, 54, 55, 56, 57,
   65, 66, 67, 68, 69, 70, 71, 72, 74, 75, 76, 77, 78, 80, 81, 82, 83,
   84, 85, 86, 87, 88, 89, 90,
   97, 98, 99, 100, 101, 102, 103, 104, 105, 106, 107, 109, 110, 111,
   112, 113, 114, 115, 116, 117, 118, 119, 120, 121, 122]

/-- The error enum `FromBase58Error` of src/base58.rs (only the invalid
character variant exists there). -/
inductive FromBase58Error where
  | InvalidBase58Byte : Nat → Nat → FromBase58Error
deriving Repr, DecidableEq

/-- The right-to-left accumulation loop of `from_base58` in
src/base58.rs, identical in structure to the one in src/lib.rs. -/
def decodeScan : List (Nat × Nat) → Nat → Nat → Except FromBase58Error Nat
  | [], x, _ => .ok x
  | (idx, byte) :: rest, x, radMult =>
    match BTC_ALPHA.findIdx? (fun c => c == byte) with
    | some i => decodeScan rest (x + i * radMult) (radMult * 58)
    | none => .error (.InvalidBase58Byte byte idx)

/-- `<[u8] as FromBase58>::from_base58` from the legacy src/base58.rs
(`r.append(&mut x.to_bytes_be())` there concatenates the same bytes that
`r.extend(x.to_bytes_be())` does in src/lib.rs). -/
def from_base58 (self : List Nat) : Except FromBase58Error (List Nat) :=
  match decodeScan self.enum.reverse 0 1 with
  | .error e => .error e
  | .ok x =>
    let zeros := (self.takeWhile (fun b => b == BTC_ALPHA.getD 0 0)).map (fun _ => 0)
    .ok (zeros ++ if 0 < x then (radixDigitsLE 256 (self.length + 1) x).reverse else [])

end Legacy

/-- The evident injection of the legacy error type of src/base58.rs into
the error type of src/lib.rs, keeping the offending byte and index. -/
def legacyErrToLib : Legacy.FromBase58Error → FromBase58Error
  | .InvalidBase58Byte byte idx => .InvalidBase58Byte byte idx

/-- Modelled from the spec: the decode scan with the alphabet passed
explicitly as a parameter (the spec presents `Decode(text, alphabet)`;
src/lib.rs has no such parameter). -/
def decodeScanAlpha (alpha : List Nat) :
    List (Nat × Nat) → Nat → Nat → Except FromBase58Error Nat
  | [], x, _ => .ok x
  | (idx, byte) :: rest, x, radMult =>
    match alpha.findIdx? (fun c => c == byte) with
    | some i => decodeScanAlpha alpha rest (x + i * radMult) (radMult * 58)
    | none => .error (.InvalidBase58Byte byte idx)

/-- Modelled from the spec: `Decode(text, alphabet)` with the alphabet as
an explicit configuration parameter (src/lib.rs hard-codes `BTC_ALPHA`). -/
def from_base58_alpha (alpha : List Nat) (self : List Nat) :
    Except FromBase58Error (List Nat) :=
  match decodeScanAlpha alpha self.enum.reverse 0 1 with
  | .error e => .error e
  | .ok x =>
    let zeros := (self.takeWhile (fun b => b == alpha.getD 0 0)).map (fun _ => 0)
    .ok (zeros ++ if 0 < x then (radixDigitsLE 256 (self.length + 1) x).reverse else [])

/-- Modelled from the spec: `Encode(payload, alphabet)` with the alphabet
as an explicit configuration parameter (src/lib.rs hard-codes
`BTC_ALPHA`). -/
def to_base58_alpha (alpha : List Nat) (self : List Nat) : List Nat :=
  let x := fromBytesBE self
  let ans := (radixDigitsLE 58 (2 * self.length + 1) x).map (fun rem => alpha.getD rem 0)
  let ans := ans ++ (self.takeWhile (fun b => b == 0)).map (fun _ => alpha.getD 0 0)
  ans.reverse

/-- Index of a byte in `BTC_ALPHA` (0 when absent); the arithmetic digit
value used by the statements about decoding. -/
def dval (byte : Nat) : Nat :=
  (BTC_ALPHA.findIdx? (fun c => c == byte)).getD 0


/-! ## Helper lemmas about the hash collaborator -/

theorem shaRound_len (st : List Nat) (kw : Nat × Nat) : (shaRound st kw).length = 8 := rfl

theorem foldl_shaRound_len (l : List (Nat × Nat)) :
    ∀ st : List Nat, st.length = 8 → (l.foldl shaRound st).length = 8 := by
  induction l with
  | nil => intro st h; exact h
  | cons p rest ih =>
    intro st _
    simpa using ih (shaRound st p) (shaRound_len st p)

theorem sha256Compress_len (h c : List Nat) (hh : h.length = 8) :
    (sha256Compress h c).length = 8 := by
  unfold sha256Compress
  simp [List.length_zip, hh, foldl_shaRound_len _ h hh]

theorem foldl_compress_len (chunks : List (List Nat)) :
    ∀ h : List Nat, h.length = 8 → (chunks.foldl sha256Compress h).length = 8 := by
  induction chunks with
  | nil => intro h hh; exact hh
  | cons c cs ih =>
    intro h hh
    simpa using ih (sha256Compress h c) (sha256Compress_len h c hh)

theorem beBytes_len (w n : Nat) : (beBytes w n).length = w := by simp [beBytes]

theorem sum_map_four (l : List Nat) : (l.map (fun _ => (4 : Nat))).sum = 4 * l.length := by
  induction l with
  | nil => simp
  | cons a l ih => simp [ih]; ring

theorem sha256_len (msg : List Nat) : (sha256 msg).length = 32 := by
  unfold sha256
  rw [List.length_flatten, List.map_map]
  have h8 : ((sha256Chunks (sha256Pad msg).length (sha256Pad msg)).foldl
      sha256Compress shaH0).length = 8 := foldl_compress_len _ _ rfl
  have : (List.length ∘ beBytes 4) = fun _ : Nat => (4 : Nat) := by
    funext n; simp [beBytes_len]
  rw [this, sum_map_four, h8]

/-! ## Claim theorems: easy group -/

set_option maxRecDepth 100000 in
/-- C7: the concrete vectors of the spec hold: encode([]) = "",
decode("") = [], encode([0]) = "1", encode([97,98,99]) = "ZiCa",
decode("ZiCa") = [97,98,99], encode([0,97,98,99]) = "1ZiCa",
encode_check([]) = "3QJmnh", decode_check("3QJmnh") = [], and
decode_check("4SU") fails (valid base58, too short for a checksum). -/
theorem C7_concrete_vectors :
    to_base58 [] = [] ∧ from_base58 [] = .ok [] ∧
    to_base58 [0] = [49] ∧
    to_base58 [97, 98, 99] = [90, 105, 67, 97] ∧
    from_base58 [90, 105, 67, 97] = .ok [97, 98, 99] ∧
    to_base58 [0, 97, 98, 99] = [49, 90, 105, 67, 97] ∧
    to_base58_check [] = [51, 81, 74, 109, 110, 104] ∧
    from_base58_check [51, 81, 74, 109, 110, 104] = .ok [] ∧
    from_base58_check [52, 83, 85] = .error .NoBase58Checksum :=
  ⟨rfl, rfl, rfl, rfl, rfl, rfl, rfl, rfl, rfl⟩

/-- C6: encode_check of a payload is encode of the payload with the first
four bytes of the double SHA-256 digest of the payload appended, and the
hash collaborator produces 32-byte digests. -/
theorem C6_encode_check_structure :
    (∀ b, to_base58_check b = to_base58 (b ++ (sha256 (sha256 b)).take 4)) ∧
    (∀ l, (sha256 l).length = 32) :=
  ⟨fun _ => rfl, sha256_len⟩

/-- C5: decode_check propagates decode failures unchanged, fails with
NoBase58Checksum when the decoded sequence is shorter than 4 bytes, and
otherwise splits off the last 4 bytes, recomputes the double-SHA-256
checksum of the content, fails with InvalidBase58Checksum carrying found
and expected values when they differ, and returns the content when they
agree. -/
theorem C5_decode_check_behavior (s : List Nat) :
    (∀ e, from_base58 s = .error e → from_base58_check s = .error e) ∧
    (∀ d, from_base58 s = .ok d → d.length < 4 →
        from_base58_check s = .error .NoBase58Checksum) ∧
    (∀ d, from_base58 s = .ok d → 4 ≤ d.length →
        (d.drop (d.length - 4) ≠ (sha256 (sha256 (d.take (d.length - 4)))).take 4 →
            from_base58_check s =
              .error (.InvalidBase58Checksum (d.drop (d.length - 4))
                ((sha256 (sha256 (d.take (d.length - 4)))).take 4))) ∧
        (d.drop (d.length - 4) = (sha256 (sha256 (d.take (d.length - 4)))).take 4 →
            from_base58_check s = .ok (d.take (d.length - 4)))) := by
  refine ⟨?_, ?_, ?_⟩
  · intro e he
    simp [from_base58_check, he]
  · intro d hd hlen
    simp [from_base58_check, hd, hlen]
  · intro d hd hlen
    constructor
    · intro hne
      simp [from_base58_check, hd, Nat.not_lt.2 hlen, hne]
    · intro heq
      simp [from_base58_check, hd, Nat.not_lt.2 hlen, heq]

/-- C5 witness: at the input "4SU" (bytes [52, 83, 85]) decoding succeeds
with the 2-byte sequence [45, 49], and decode_check fails with
NoBase58Checksum. -/
theorem C5_decode_check_behavior_witness :
    from_base58 [52, 83, 85] = .ok [45, 49] ∧
    from_base58_check [52, 83, 85] = .error .NoBase58Checksum :=
  ⟨rfl, (C5_decode_check_behavior [52, 83, 85]).2.1 [45, 49] rfl (by decide)⟩

/-! ## Alphabet parameterization lemmas (claim C8) -/

theorem decodeScanAlpha_BTC : ∀ (l : List (Nat × Nat)) (x r : Nat),
    decodeScanAlpha BTC_ALPHA l x r = decodeScan l x r := by
  intro l
  induction l with
  | nil => intro x r; rfl
  | cons p rest ih =>
    intro x r
    obtain ⟨idx, byte⟩ := p
    simp only [decodeScanAlpha, decodeScan]
    cases h : BTC_ALPHA.findIdx? (fun c => c == byte) <;> simp [h, ih]

/-- C8 counterexample: no operation of the library decodes with the
Flickr alphabet; at the input "Z" (byte [90]) the library's decode
returns the Bitcoin-alphabet digit value 32, whereas a decode using
FLICKR_ALPHA would return 57. -/
theorem C8_counterexample :
    from_base58 [90] = .ok [32] ∧
    from_base58_alpha FLICKR_ALPHA [90] = .ok [57] ∧
    (Except.ok [32] : Except FromBase58Error (List Nat)) ≠ .ok [57] :=
  ⟨rfl, rfl, by simp⟩

/-- C8 amended: two standard 58-symbol alphabets are defined as named
constants (Bitcoin and Flickr orderings, each 58 distinct symbols), but
there is no alphabet configuration surface: the encode and decode
operations coincide with the explicitly-parameterized versions applied to
the Bitcoin alphabet on every input, and FLICKR_ALPHA is never used. -/
theorem C8_alphabets_hardwired_btc :
    BTC_ALPHA.length = 58 ∧ BTC_ALPHA.Nodup ∧
    FLICKR_ALPHA.length = 58 ∧ FLICKR_ALPHA.Nodup ∧
    (∀ s, from_base58 s = from_base58_alpha BTC_ALPHA s) ∧
    (∀ s, to_base58 s = to_base58_alpha BTC_ALPHA s) := by
  refine ⟨by decide, by decide, by decide, by decide, ?_, fun s => rfl⟩
  intro s
  unfold from_base58 from_base58_alpha
  rw [decodeScanAlpha_BTC]

/-! ## Legacy decoder equivalence (claim C10) -/

theorem legacy_scan_equiv : ∀ (l : List (Nat × Nat)) (x r : Nat),
    Except.mapError legacyErrToLib (Legacy.decodeScan l x r) = decodeScan l x r := by
  intro l
  induction l with
  | nil => intro x r; rfl
  | cons p rest ih =>
    intro x r
    obtain ⟨idx, byte⟩ := p
    have halpha : Legacy.BTC_ALPHA = BTC_ALPHA := rfl
    simp only [Legacy.decodeScan, decodeScan, halpha]
    cases h : BTC_ALPHA.findIdx? (fun c => c == byte) with
    | none => simp [h, Except.mapError, legacyErrToLib]
    | some i =>
      simp only [h]
      exact ih _ _

/-- C10: the legacy decoder of src/base58.rs is extensionally equivalent
to the decoder of src/lib.rs: mapping its error type into the lib error
type by the injection that keeps the offending byte and index, the two
functions agree on every input. -/
theorem C10_legacy_decoder_equiv (s : List Nat) :
    Except.mapError legacyErrToLib (Legacy.from_base58 s) = from_base58 s := by
  unfold Legacy.from_base58 from_base58
  rw [← legacy_scan_equiv]
  cases h : Legacy.decodeScan s.enum.reverse 0 1 with
  | error e => simp [Except.mapError, h]
  | ok x =>
    simp only [Except.mapError, h]
    rfl

/-! ## Digit arithmetic helpers -/

theorem radixDigitsLE_eq_digits (base : Nat) (hb : 1 < base) :
    ∀ fuel x, x < base ^ fuel → radixDigitsLE base fuel x = Nat.digits base x := by
  intro fuel
  induction fuel with
  | zero =>
    intro x hx
    have hx0 : x = 0 := Nat.lt_one_iff.1 (by simpa using hx)
    subst hx0
    rw [show radixDigitsLE base 0 0 = [] from rfl, Nat.digits_zero]
  | succ fuel ih =>
    intro x hx
    by_cases h0 : x = 0
    · subst h0; simp [radixDigitsLE]
    · have hbpos : 0 < base := Nat.lt_of_lt_of_le Nat.zero_lt_one hb.le
      rw [show radixDigitsLE base (fuel + 1) x
            = if x = 0 then [] else x % base :: radixDigitsLE base fuel (x / base) from rfl]
      rw [if_neg h0, Nat.digits_def' hb (Nat.pos_of_ne_zero h0)]
      congr 1
      apply ih
      rw [Nat.div_lt_iff_lt_mul hbpos]
      calc x < base ^ (fuel + 1) := hx
        _ = base ^ fuel * base := by rw [Nat.pow_succ]

theorem fromBytesBE_foldl (l : List Nat) :
    ∀ a, l.foldl (fun acc b => acc * 256 + b) a
      = Nat.ofDigits 256 l.reverse + a * 256 ^ l.length := by
  induction l with
  | nil => intro a; simp
  | cons b l ih =>
    intro a
    simp only [List.foldl_cons, List.reverse_cons, List.length_cons]
    rw [ih, Nat.ofDigits_append]
    simp [Nat.ofDigits_cons, Nat.ofDigits_nil]
    ring

theorem fromBytesBE_eq (l : List Nat) : fromBytesBE l = Nat.ofDigits 256 l.reverse := by
  have := fromBytesBE_foldl l 0
  simpa [fromBytesBE] using this

theorem ofDigits_lt_pow (b : Nat) (hb : 0 < b) :
    ∀ l : List Nat, (∀ d ∈ l, d < b) → Nat.ofDigits b l < b ^ l.length := by
  intro l
  induction l with
  | nil => intro _; simpa using Nat.one_pos
  | cons d l ih =>
    intro h
    have hd : d < b := h d (List.mem_cons_self _ _)
    have hl : Nat.ofDigits b l < b ^ l.length :=
      ih (fun x hx => h x (List.mem_cons_of_mem _ hx))
    rw [Nat.ofDigits_cons]
    calc (d : ℕ) + b * Nat.ofDigits b l < b + b * Nat.ofDigits b l := by omega
      _ = b * (1 + Nat.ofDigits b l) := by ring
      _ ≤ b * b ^ l.length := Nat.mul_le_mul_left b (by omega)
      _ = b ^ (d :: l).length := by rw [List.length_cons, Nat.pow_succ]; ring

theorem ofDigits_replicate_zero (b : Nat) : ∀ k, Nat.ofDigits b (List.replicate k 0) = 0 := by
  intro k
  induction k with
  | zero => rfl
  | succ k ih => simp [List.replicate_succ, Nat.ofDigits_cons, ih]

theorem ofDigits_append_replicate_zero (b : Nat) (l : List Nat) (k : Nat) :
    Nat.ofDigits b (l ++ List.replicate k 0) = Nat.ofDigits b l := by
  rw [Nat.ofDigits_append, ofDigits_replicate_zero]
  simp

theorem map_const_zero (l : List Nat) :
    l.map (fun _ => (0 : Nat)) = List.replicate l.length 0 := by
  induction l with
  | nil => rfl
  | cons a l ih => simp [ih, List.replicate_succ]

theorem map_const_49 (l : List Nat) :
    l.map (fun _ => (49 : Nat)) = List.replicate l.length 49 := by
  induction l with
  | nil => rfl
  | cons a l ih => simp [ih, List.replicate_succ]

/-! ## Alphabet facts (settled by computation) -/

theorem alpha0 : BTC_ALPHA.getD 0 0 = 49 := rfl

theorem mem_alpha_dval_lt : ∀ b ∈ BTC_ALPHA, dval b < 58 := by decide

theorem mem_alpha_alpha_dval : ∀ b ∈ BTC_ALPHA, BTC_ALPHA.getD (dval b) 0 = b := by decide

theorem dval_alpha_getD : ∀ d, d < 58 → dval (BTC_ALPHA.getD d 0) = d := by decide

theorem alpha_getD_mem : ∀ d, d < 58 → BTC_ALPHA.getD d 0 ∈ BTC_ALPHA := by decide

theorem alpha_getD_eq_49 : ∀ d, d < 58 → BTC_ALPHA.getD d 0 = 49 → d = 0 := by decide

theorem mem_alpha_dval_zero : ∀ b ∈ BTC_ALPHA, dval b = 0 → b = 49 := by decide

theorem mem_alpha_findIdx : ∀ b ∈ BTC_ALPHA,
    BTC_ALPHA.findIdx? (fun c => c == b) = some (dval b) := by decide

theorem not_mem_findIdx (b : Nat) (h : b ∉ BTC_ALPHA) :
    BTC_ALPHA.findIdx? (fun c => c == b) = none := by
  rw [List.findIdx?_eq_none_iff]
  intro c hc
  simp only [beq_eq_false_iff_ne, ne_eq]
  rintro rfl
  exact h hc

/-! ## Characterization of the decode scan -/

theorem decodeScan_ok : ∀ (ps : List (Nat × Nat)) (x r : Nat),
    (∀ p ∈ ps, p.2 ∈ BTC_ALPHA) →
    decodeScan ps x r = .ok (x + r * Nat.ofDigits 58 (ps.map (fun p => dval p.2))) := by
  intro ps
  induction ps with
  | nil => intro x r _; simp [decodeScan, Nat.ofDigits_nil]
  | cons p rest ih =>
    intro x r hmem
    obtain ⟨idx, byte⟩ := p
    have hb : byte ∈ BTC_ALPHA := hmem _ (List.mem_cons_self _ _)
    simp only [decodeScan, mem_alpha_findIdx byte hb]
    rw [ih _ _ (fun q hq => hmem q (List.mem_cons_of_mem _ hq))]
    congr 1
    simp only [List.map_cons, Nat.ofDigits_cons]
    push_cast
    ring

theorem decodeScan_err : ∀ (ps₁ : List (Nat × Nat)) (idx byte : Nat) (ps₂ : List (Nat × Nat))
    (x r : Nat), (∀ p ∈ ps₁, p.2 ∈ BTC_ALPHA) → byte ∉ BTC_ALPHA →
    decodeScan (ps₁ ++ (idx, byte) :: ps₂) x r = .error (.InvalidBase58Byte byte idx) := by
  intro ps₁
  induction ps₁ with
  | nil =>
    intro idx byte ps₂ x r _ hbad
    simp only [List.nil_append, decodeScan, not_mem_findIdx byte hbad]
  | cons p rest ih =>
    intro idx byte ps₂ x r hmem hbad
    obtain ⟨i0, b0⟩ := p
    simp only [List.cons_append, decodeScan,
      mem_alpha_findIdx b0 (hmem _ (List.mem_cons_self _ _))]
    exact ih idx byte ps₂ _ _ (fun q hq => hmem q (List.mem_cons_of_mem _ hq)) hbad

/-! ## Structure of decode and encode -/

theorem decode_eq (s : List Nat) (hs : ∀ c ∈ s, c ∈ BTC_ALPHA) :
    from_base58 s = .ok (List.replicate (s.takeWhile (fun c => c == 49)).length 0
      ++ (Nat.digits 256 (Nat.ofDigits 58 (s.map dval).reverse)).reverse) := by
  have hmap : (s.enum.reverse).map (fun p => dval p.2) = (s.map dval).reverse := by
    rw [List.map_reverse]
    congr 1
    have h1 : (s.enum).map (fun p => dval p.2) = ((s.enum).map Prod.snd).map dval := by
      rw [List.map_map]; rfl
    rw [h1, List.enum_map_snd]
  have hscan : decodeScan s.enum.reverse 0 1
      = .ok (Nat.ofDigits 58 (s.map dval).reverse) := by
    have hm : ∀ p ∈ s.enum.reverse, p.2 ∈ BTC_ALPHA := by
      intro p hp
      have hp' : p ∈ List.enumFrom 0 s := List.mem_reverse.1 hp
      exact hs p.2 (List.snd_mem_of_mem_enumFrom hp')
    have := decodeScan_ok s.enum.reverse 0 1 hm
    rw [hmap] at this
    simpa using this
  have hdigmem : ∀ d ∈ (s.map dval).reverse, d < 58 := by
    intro d hd
    rw [List.mem_reverse, List.mem_map] at hd
    obtain ⟨c, hc, rfl⟩ := hd
    exact mem_alpha_dval_lt c (hs c hc)
  have hXlt : Nat.ofDigits 58 (s.map dval).reverse < 256 ^ (s.length + 1) := by
    have h1 : Nat.ofDigits 58 (s.map dval).reverse < 58 ^ ((s.map dval).reverse).length :=
      ofDigits_lt_pow 58 (by norm_num) _ hdigmem
    have h2 : ((s.map dval).reverse).length = s.length := by simp
    rw [h2] at h1
    calc Nat.ofDigits 58 (s.map dval).reverse < 58 ^ s.length := h1
      _ ≤ 256 ^ s.length := Nat.pow_le_pow_left (by norm_num) _
      _ < 256 ^ (s.length + 1) := Nat.pow_lt_pow_succ (by norm_num)
  unfold from_base58
  simp only [hscan]
  simp only [alpha0, map_const_zero]
  congr 1
  by_cases hX : Nat.ofDigits 58 (s.map dval).reverse = 0
  · rw [hX]
    simp
  · rw [if_pos (Nat.pos_of_ne_zero hX)]
    rw [radixDigitsLE_eq_digits 256 (by norm_num) _ _ hXlt]

theorem takeWhile49_digits (X : Nat) :
    (((Nat.digits 58 X).map (fun d => BTC_ALPHA.getD d 0)).reverse).takeWhile
      (fun c => c == 49) = [] := by
  by_cases hX : X = 0
  · subst hX; simp
  · have hdne : Nat.digits 58 X ≠ [] := Nat.digits_ne_nil_iff_ne_zero.2 hX
    have hmapne : (Nat.digits 58 X).map (fun d => BTC_ALPHA.getD d 0) ≠ [] := by
      simpa using hdne
    have hrevne : ((Nat.digits 58 X).map (fun d => BTC_ALPHA.getD d 0)).reverse ≠ [] := by
      simpa using hdne
    have hhead : (((Nat.digits 58 X).map (fun d => BTC_ALPHA.getD d 0)).reverse).head hrevne
        = BTC_ALPHA.getD ((Nat.digits 58 X).getLast hdne) 0 := by
      rw [List.head_reverse, List.getLast_map]
    have hmem : (Nat.digits 58 X).getLast hdne ∈ Nat.digits 58 X := List.getLast_mem hdne
    have hlt : (Nat.digits 58 X).getLast hdne < 58 := Nat.digits_lt_base (by norm_num) hmem
    have hne0 : (Nat.digits 58 X).getLast hdne ≠ 0 := Nat.getLast_digit_ne_zero 58 hX
    have hc49 : (((Nat.digits 58 X).map (fun d => BTC_ALPHA.getD d 0)).reverse).head hrevne ≠ 49 := by
      rw [hhead]
      intro h49
      exact hne0 (alpha_getD_eq_49 _ hlt h49)
    obtain ⟨c, rest, hcr⟩ := List.exists_cons_of_ne_nil hrevne
    have hc : c ≠ 49 := by
      have h1 : (((Nat.digits 58 X).map (fun d => BTC_ALPHA.getD d 0)).reverse).head? = some c := by
        rw [hcr]; rfl
      have h2 : (((Nat.digits 58 X).map (fun d => BTC_ALPHA.getD d 0)).reverse).head?
          = some ((((Nat.digits 58 X).map (fun d => BTC_ALPHA.getD d 0)).reverse).head hrevne) :=
        List.head?_eq_head hrevne
      have h3 := Option.some.inj (h1.symm.trans h2)
      rw [← h3] at hc49
      exact hc49
    rw [hcr]
    exact List.takeWhile_cons_of_neg (by simp [hc])

theorem encode_eq (b : List Nat) (hb : ∀ c ∈ b, c < 256) :
    to_base58 b = List.replicate (b.takeWhile (fun c => c == 0)).length 49
      ++ ((Nat.digits 58 (Nat.ofDigits 256 (b.dropWhile (fun c => c == 0)).reverse)).map
            (fun d => BTC_ALPHA.getD d 0)).reverse := by
  have hsplit : b.takeWhile (fun c => c == 0) ++ b.dropWhile (fun c => c == 0) = b :=
    List.takeWhile_append_dropWhile _ _
  have htw : b.takeWhile (fun c => c == 0)
      = List.replicate (b.takeWhile (fun c => c == 0)).length 0 := by
    apply List.eq_replicate_of_mem
    intro c hc
    simpa using List.mem_takeWhile_imp hc
  have hx : fromBytesBE b = Nat.ofDigits 256 (b.dropWhile (fun c => c == 0)).reverse := by
    rw [fromBytesBE_eq]
    conv_lhs => rw [← hsplit]
    rw [List.reverse_append]
    rw [htw, List.reverse_replicate, ofDigits_append_replicate_zero]
  have hmemd : ∀ d ∈ (b.dropWhile (fun c => c == 0)).reverse, d < 256 := by
    intro d hd
    rw [List.mem_reverse] at hd
    exact hb d (List.dropWhile_subset _ hd)
  have hbound : Nat.ofDigits 256 (b.dropWhile (fun c => c == 0)).reverse
      < 58 ^ (2 * b.length + 1) := by
    have h1 := ofDigits_lt_pow 256 (by norm_num) _ hmemd
    have h2 : ((b.dropWhile (fun c => c == 0)).reverse).length ≤ b.length := by
      rw [List.length_reverse]
      exact List.Sublist.length_le (List.dropWhile_sublist _)
    calc Nat.ofDigits 256 (b.dropWhile (fun c => c == 0)).reverse
        < 256 ^ ((b.dropWhile (fun c => c == 0)).reverse).length := h1
      _ ≤ 256 ^ b.length := Nat.pow_le_pow_right (by norm_num : 0 < 256) h2
      _ ≤ 58 ^ (2 * b.length) := by
          rw [Nat.pow_mul]
          exact Nat.pow_le_pow_left (by norm_num : 256 ≤ 58 ^ 2) _
      _ < 58 ^ (2 * b.length + 1) := Nat.pow_lt_pow_succ (by norm_num : 1 < 58)
  simp only [to_base58]
  rw [hx, radixDigitsLE_eq_digits 58 (by norm_num) _ _ hbound, List.reverse_append]
  congr 1
  simp only [alpha0, map_const_49, List.reverse_replicate]

theorem getD_of_lt (l : List Nat) (n : Nat) (h : n < l.length) : l.getD n 0 = l[n] := by
  simp [List.getD_eq_getElem?_getD, List.getElem?_eq_getElem h]

/-- C2: on any input whose characters all lie in the alphabet, decode
returns one zero byte per character of the leading run of `alphabet[0]`
(= byte 49) characters, followed by the big-endian minimal byte
representation of X = the sum of index times 58 to the position counted
from the right (and nothing more when X = 0); this holds for arbitrary
alphabet-valid strings, including non-canonical ones with zero-characters
interleaved after non-zero characters. -/
theorem C2_decode_structure (s : List Nat) (hs : ∀ c ∈ s, c ∈ BTC_ALPHA) :
    from_base58 s = .ok (List.replicate (s.takeWhile (fun c => c == 49)).length 0
      ++ (Nat.digits 256 (Nat.ofDigits 58 (s.map dval).reverse)).reverse) :=
  decode_eq s hs

/-- C2 witness: the theorem applied at the non-canonical input "Z1"
(bytes [90, 49]), which has a zero-character after a non-zero one. -/
theorem C2_decode_structure_witness :
    (∀ c ∈ [90, 49], c ∈ BTC_ALPHA) ∧
    from_base58 [90, 49] = .ok (List.replicate (([90, 49].takeWhile (fun c => c == 49))).length 0
      ++ (Nat.digits 256 (Nat.ofDigits 58 ([90, 49].map dval).reverse)).reverse) :=
  ⟨by decide, C2_decode_structure [90, 49] (by decide)⟩

/-- C3: encode of a payload with k leading zero bytes produces the
replicate of k zero-characters followed by the reversed base-58 digit
string of the magnitude of the remaining content (empty when the
remainder is empty, so an all-zero payload encodes to exactly the
zero-prefix), and the output has exactly k leading zero-characters. -/
theorem C3_encode_structure (b : List Nat) (hb : ∀ c ∈ b, c < 256) :
    to_base58 b = List.replicate (b.takeWhile (fun c => c == 0)).length 49
      ++ ((Nat.digits 58 (Nat.ofDigits 256 (b.dropWhile (fun c => c == 0)).reverse)).map
            (fun d => BTC_ALPHA.getD d 0)).reverse
    ∧ ((to_base58 b).takeWhile (fun c => c == 49)).length
        = (b.takeWhile (fun c => c == 0)).length := by
  have h1 := encode_eq b hb
  refine ⟨h1, ?_⟩
  rw [h1]
  rw [List.takeWhile_append_of_pos (by
    intro a ha
    simp [List.eq_of_mem_replicate ha])]
  rw [takeWhile49_digits]
  simp

/-- C3 witness: the theorem applied at the payload [0, 0, 97] with two
leading zero bytes. -/
theorem C3_encode_structure_witness :
    (∀ c ∈ [0, 0, 97], c < 256) ∧
    (to_base58 [0, 0, 97] = List.replicate (([0, 0, 97].takeWhile (fun c => c == 0))).length 49
      ++ ((Nat.digits 58 (Nat.ofDigits 256 (([0, 0, 97].dropWhile (fun c => c == 0))).reverse)).map
            (fun d => BTC_ALPHA.getD d 0)).reverse
    ∧ ((to_base58 [0, 0, 97]).takeWhile (fun c => c == 49)).length
        = (([0, 0, 97].takeWhile (fun c => c == 0))).length) :=
  ⟨by decide, C3_encode_structure [0, 0, 97] (by decide)⟩

/-- C4: on any input containing a character outside the alphabet, decode
fails with a single InvalidCharacter error carrying the offending byte
and its 0-based index from the start of the string; the reported
character is the first invalid one met by the right-to-left scan, i.e.
the invalid character with the greatest index. -/
theorem C4_invalid_char (s : List Nat) (j : Nat) (hj : j < s.length)
    (hbad : s.getD j 0 ∉ BTC_ALPHA)
    (hafter : ∀ i, i < s.length → j < i → s.getD i 0 ∈ BTC_ALPHA) :
    from_base58 s = .error (.InvalidBase58Byte (s.getD j 0) j) := by
  have hjth : s.getD j 0 = s[j] := getD_of_lt s j hj
  have hsplit : s = s.take j ++ s.getD j 0 :: s.drop (j + 1) := by
    conv_lhs => rw [← List.take_append_drop j s]
    rw [List.drop_eq_getElem_cons hj, hjth]
  have htklen : (s.take j).length = j := by
    rw [List.length_take]
    omega
  have henum : s.enum.reverse
      = (List.enumFrom (j + 1) (s.drop (j + 1))).reverse
        ++ (j, s.getD j 0) :: (List.enumFrom 0 (s.take j)).reverse := by
    conv_lhs => rw [hsplit]
    rw [show (s.take j ++ s.getD j 0 :: s.drop (j + 1)).enum
          = List.enumFrom 0 (s.take j ++ s.getD j 0 :: s.drop (j + 1)) from rfl]
    rw [List.enumFrom_append, htklen, List.enumFrom_cons, List.reverse_append]
    simp
  have hmem : ∀ p ∈ (List.enumFrom (j + 1) (s.drop (j + 1))).reverse, p.2 ∈ BTC_ALPHA := by
    intro p hp
    rw [List.mem_reverse] at hp
    obtain ⟨i, c⟩ := p
    obtain ⟨hle, hlt, heq⟩ := List.mem_enumFrom hp
    have hdlen : (s.drop (j + 1)).length = s.length - (j + 1) := List.length_drop _ _
    have hilt : i < s.length := by omega
    have hc : c = s[i] := by
      rw [heq]
      rw [List.getElem_drop]
      congr 1
      omega
    have := hafter i hilt (by omega)
    rw [getD_of_lt s i hilt] at this
    simpa [hc] using this
  have hscan : decodeScan s.enum.reverse 0 1
      = .error (.InvalidBase58Byte (s.getD j 0) j) := by
    rw [henum]
    exact decodeScan_err _ j (s.getD j 0) _ 0 1 hmem hbad
  unfold from_base58
  simp only [hscan]

/-- C4 witness: the theorem applied at the input "0" (byte [48], not in
the alphabet, at index 0). -/
theorem C4_invalid_char_witness :
    (0 < ([48] : List Nat).length ∧ ([48] : List Nat).getD 0 0 ∉ BTC_ALPHA ∧
      (∀ i, i < ([48] : List Nat).length → 0 < i → ([48] : List Nat).getD i 0 ∈ BTC_ALPHA)) ∧
    from_base58 [48] = .error (.InvalidBase58Byte (([48] : List Nat).getD 0 0) 0) :=
  ⟨⟨by decide, by decide, by decide⟩,
    C4_invalid_char [48] 0 (by decide) (by decide) (by decide)⟩

/-! ## Round-trip lemmas -/

theorem map_id_of_mem {l : List Nat} {f : Nat → Nat} (h : ∀ a ∈ l, f a = a) :
    l.map f = l := by
  induction l with
  | nil => rfl
  | cons a l ih =>
    rw [List.map_cons, h a (List.mem_cons_self _ _), ih (fun x hx => h x (List.mem_cons_of_mem _ hx))]

theorem beBytes_lt (w n : Nat) : ∀ d ∈ beBytes w n, d < 256 := by
  intro d hd
  rw [beBytes, List.mem_map] at hd
  obtain ⟨i, _, rfl⟩ := hd
  exact Nat.mod_lt _ (by norm_num)

theorem sha256_bytes_lt (msg : List Nat) : ∀ d ∈ sha256 msg, d < 256 := by
  intro d hd
  unfold sha256 at hd
  rw [List.mem_flatten] at hd
  obtain ⟨l, hl, hdl⟩ := hd
  rw [List.mem_map] at hl
  obtain ⟨x, _, rfl⟩ := hl
  exact beBytes_lt 4 x d hdl

theorem decode_to_base58 (b : List Nat) (hb : ∀ c ∈ b, c < 256) :
    from_base58 (to_base58 b) = .ok b := by
  have henc := encode_eq b hb
  have hs : ∀ c ∈ to_base58 b, c ∈ BTC_ALPHA := by
    rw [henc]
    intro c hc
    rcases List.mem_append.1 hc with h | h
    · rw [List.eq_of_mem_replicate h]; decide
    · rw [List.mem_reverse, List.mem_map] at h
      obtain ⟨d, hd, rfl⟩ := h
      exact alpha_getD_mem d (Nat.digits_lt_base (by norm_num) hd)
  have hdec := decode_eq (to_base58 b) hs
  have htw : ((to_base58 b).takeWhile (fun c => c == 49)).length
      = (b.takeWhile (fun c => c == 0)).length := by
    rw [henc, List.takeWhile_append_of_pos (fun a ha => by simp [List.eq_of_mem_replicate ha]),
      takeWhile49_digits]
    simp
  have hmapdval : ((to_base58 b).map dval).reverse
      = Nat.digits 58 (Nat.ofDigits 256 (b.dropWhile (fun c => c == 0)).reverse)
        ++ List.replicate (b.takeWhile (fun c => c == 0)).length 0 := by
    rw [henc, List.map_append, List.map_reverse, List.map_map]
    have h1 : (List.replicate (b.takeWhile (fun c => c == 0)).length 49).map dval
        = List.replicate (b.takeWhile (fun c => c == 0)).length 0 := by
      rw [List.map_replicate, show dval 49 = 0 from rfl]
    have h2 : (Nat.digits 58 (Nat.ofDigits 256 (b.dropWhile (fun c => c == 0)).reverse)).map
          (dval ∘ fun d => BTC_ALPHA.getD d 0)
        = Nat.digits 58 (Nat.ofDigits 256 (b.dropWhile (fun c => c == 0)).reverse) := by
      apply map_id_of_mem
      intro d hd
      simp only [Function.comp]
      exact dval_alpha_getD d (Nat.digits_lt_base (by norm_num) hd)
    rw [h1, h2, List.reverse_append, List.reverse_reverse, List.reverse_replicate]
  have hX : Nat.ofDigits 58 ((to_base58 b).map dval).reverse
      = Nat.ofDigits 256 (b.dropWhile (fun c => c == 0)).reverse := by
    rw [hmapdval, ofDigits_append_replicate_zero, Nat.ofDigits_digits]
  rw [hdec, htw, hX]
  congr 1
  have hb' : b = List.replicate (b.takeWhile (fun c => c == 0)).length 0
      ++ b.dropWhile (fun c => c == 0) := by
    conv_lhs => rw [← List.takeWhile_append_dropWhile (fun c => c == 0) b]
    congr 1
    apply List.eq_replicate_of_mem
    intro c hc
    simpa using List.mem_takeWhile_imp hc
  by_cases ht : b.dropWhile (fun c => c == 0) = []
  · rw [ht] at hb' ⊢
    simp only [List.reverse_nil]
    rw [show Nat.ofDigits 256 ([] : List Nat) = 0 from rfl, Nat.digits_zero]
    simpa using hb'.symm
  · have hrevne : (b.dropWhile (fun c => c == 0)).reverse ≠ [] := by simpa using ht
    have hdig : Nat.digits 256 (Nat.ofDigits 256 (b.dropWhile (fun c => c == 0)).reverse)
        = (b.dropWhile (fun c => c == 0)).reverse := by
      apply Nat.digits_ofDigits 256 (by norm_num)
      · intro d hd
        rw [List.mem_reverse] at hd
        exact hb d (List.dropWhile_subset _ hd)
      · intro hne
        rw [List.getLast_reverse]
        have := List.head_dropWhile_not (fun c => c == 0) b (w := ht)
        simpa using this
    rw [hdig, List.reverse_reverse, ← hb']

/-- C1: round-trip: for every byte sequence (entries being bytes, i.e.
less than 256), decoding the encoding returns the original sequence, and
decode_check of encode_check returns the original sequence; this includes
the empty sequence. -/
theorem C1_round_trip (b : List Nat) (hb : ∀ c ∈ b, c < 256) :
    from_base58 (to_base58 b) = .ok b ∧
    from_base58_check (to_base58_check b) = .ok b := by
  refine ⟨decode_to_base58 b hb, ?_⟩
  have hball : ∀ c ∈ b ++ (sha256 (sha256 b)).take 4, c < 256 := by
    intro c hc
    rcases List.mem_append.1 hc with h | h
    · exact hb c h
    · exact sha256_bytes_lt (sha256 b) c (List.take_subset _ _ h)
  have h1 : from_base58 (to_base58 (b ++ (sha256 (sha256 b)).take 4))
      = .ok (b ++ (sha256 (sha256 b)).take 4) := decode_to_base58 _ hball
  have hlen4 : ((sha256 (sha256 b)).take 4).length = 4 := by
    rw [List.length_take, sha256_len]
    rfl
  unfold from_base58_check
  rw [show to_base58_check b = to_base58 (b ++ (sha256 (sha256 b)).take 4) from rfl]
  simp only [h1]
  rw [List.length_append, hlen4]
  rw [if_neg (by omega : ¬(b.length + 4 < 4))]
  have htake : (b ++ (sha256 (sha256 b)).take 4).take (b.length + 4 - 4) = b := by
    rw [show b.length + 4 - 4 = b.length from by omega]
    exact List.take_left _ _
  have hdrop : (b ++ (sha256 (sha256 b)).take 4).drop (b.length + 4 - 4)
      = (sha256 (sha256 b)).take 4 := by
    rw [show b.length + 4 - 4 = b.length from by omega]
    exact List.drop_left _ _
  rw [htake, hdrop]
  rw [if_neg (by simp)]

/-- C1 witness: the theorem applied at the payload "abc"
(bytes [97, 98, 99]). -/
theorem C1_round_trip_witness :
    (∀ c ∈ [97, 98, 99], c < 256) ∧
    (from_base58 (to_base58 [97, 98, 99]) = .ok [97, 98, 99] ∧
      from_base58_check (to_base58_check [97, 98, 99]) = .ok [97, 98, 99]) :=
  ⟨by decide, C1_round_trip [97, 98, 99] (by decide)⟩

theorem takeWhile0_digits (X : Nat) :
    ((Nat.digits 256 X).reverse).takeWhile (fun c => c == 0) = [] := by
  by_cases hX : X = 0
  · subst hX; simp
  · have hdne : Nat.digits 256 X ≠ [] := Nat.digits_ne_nil_iff_ne_zero.2 hX
    have hrevne : (Nat.digits 256 X).reverse ≠ [] := by simpa using hdne
    have hhead : ((Nat.digits 256 X).reverse).head hrevne
        = (Nat.digits 256 X).getLast hdne := List.head_reverse _
    obtain ⟨c, rest, hcr⟩ := List.exists_cons_of_ne_nil hrevne
    have hc : c ≠ 0 := by
      have h1 : ((Nat.digits 256 X).reverse).head? = some c := by rw [hcr]; rfl
      have h2 : ((Nat.digits 256 X).reverse).head?
          = some (((Nat.digits 256 X).reverse).head hrevne) := List.head?_eq_head hrevne
      have h3 := Option.some.inj (h1.symm.trans h2)
      rw [h3, hhead]
      exact Nat.getLast_digit_ne_zero 256 hX
    rw [hcr]
    exact List.takeWhile_cons_of_neg (by simp [hc])

theorem dropWhile0_digits (X : Nat) (hX : X ≠ 0) :
    ((Nat.digits 256 X).reverse).dropWhile (fun c => c == 0)
      = (Nat.digits 256 X).reverse := by
  have hdne : Nat.digits 256 X ≠ [] := Nat.digits_ne_nil_iff_ne_zero.2 hX
  have hrevne : (Nat.digits 256 X).reverse ≠ [] := by simpa using hdne
  have h := List.takeWhile_append_dropWhile (fun c => c == 0) ((Nat.digits 256 X).reverse)
  rw [takeWhile0_digits] at h
  simpa using h

theorem encode_replicate_zero (k : Nat) :
    to_base58 (List.replicate k 0) = List.replicate k 49 := by
  have hb : ∀ c ∈ List.replicate k 0, c < 256 := by
    intro c hc
    rw [List.eq_of_mem_replicate hc]
    norm_num
  rw [encode_eq _ hb]
  have h1 : (List.replicate k 0).takeWhile (fun c => c == 0) = List.replicate k 0 :=
    List.takeWhile_eq_self_iff.2 (fun x hx => by simp [List.eq_of_mem_replicate hx])
  have h2 : (List.replicate k 0).dropWhile (fun c => c == 0) = [] :=
    List.dropWhile_eq_nil_iff.2 (fun x hx => by simp [List.eq_of_mem_replicate hx])
  rw [h1, h2]
  simp only [List.length_replicate, List.reverse_nil]
  rw [show Nat.ofDigits 256 ([] : List Nat) = 0 from rfl, Nat.digits_zero]
  simp

theorem encode_of_decode_aux (k0 : Nat) (u : List Nat) (hu : u ≠ [])
    (humem : ∀ c ∈ u, c ∈ BTC_ALPHA) (hhead : ¬ u.head hu = 49) :
    to_base58 (List.replicate k0 0
        ++ (Nat.digits 256 (Nat.ofDigits 58 (u.map dval).reverse)).reverse)
      = List.replicate k0 49 ++ u := by
  have hXne : Nat.ofDigits 58 (u.map dval).reverse ≠ 0 := by
    intro h0
    have hall := Nat.digits_zero_of_eq_zero (by norm_num : (58 : ℕ) ≠ 0) h0
    have hdh : dval (u.head hu) = 0 := by
      apply hall
      rw [List.mem_reverse, List.mem_map]
      exact ⟨u.head hu, List.head_mem hu, rfl⟩
    exact hhead (mem_alpha_dval_zero _ (humem _ (List.head_mem hu)) hdh)
  have hb : ∀ c ∈ List.replicate k0 0
      ++ (Nat.digits 256 (Nat.ofDigits 58 (u.map dval).reverse)).reverse, c < 256 := by
    intro c hc
    rcases List.mem_append.1 hc with h | h
    · rw [List.eq_of_mem_replicate h]; norm_num
    · rw [List.mem_reverse] at h
      exact Nat.digits_lt_base (by norm_num) h
  rw [encode_eq _ hb]
  have htwb : (List.replicate k0 0
      ++ (Nat.digits 256 (Nat.ofDigits 58 (u.map dval).reverse)).reverse).takeWhile
        (fun c => c == 0) = List.replicate k0 0 := by
    rw [List.takeWhile_append_of_pos (fun a ha => by simp [List.eq_of_mem_replicate ha]),
      takeWhile0_digits, List.append_nil]
  have hdwb : (List.replicate k0 0
      ++ (Nat.digits 256 (Nat.ofDigits 58 (u.map dval).reverse)).reverse).dropWhile
        (fun c => c == 0)
      = (Nat.digits 256 (Nat.ofDigits 58 (u.map dval).reverse)).reverse := by
    rw [List.dropWhile_append_of_pos (fun a ha => by simp [List.eq_of_mem_replicate ha]),
      dropWhile0_digits _ hXne]
  rw [htwb, hdwb, List.length_replicate, List.reverse_reverse, Nat.ofDigits_digits]
  congr 1
  have hdig : Nat.digits 58 (Nat.ofDigits 58 (u.map dval).reverse) = (u.map dval).reverse := by
    apply Nat.digits_ofDigits 58 (by norm_num)
    · intro d hd
      rw [List.mem_reverse, List.mem_map] at hd
      obtain ⟨c, hc, rfl⟩ := hd
      exact mem_alpha_dval_lt c (humem c hc)
    · intro hne
      rw [List.getLast_reverse, List.head_map]
      exact fun h0 => hhead (mem_alpha_dval_zero _ (humem _ (List.head_mem hu)) h0)
  rw [hdig, List.map_reverse, List.map_map]
  have : u.map ((fun d => BTC_ALPHA.getD d 0) ∘ dval) = u := by
    apply map_id_of_mem
    intro a ha
    simp only [Function.comp]
    exact mem_alpha_alpha_dval a (humem a ha)
  rw [this, List.reverse_reverse]

/-- C9: decode followed by encode is the identity on every alphabet-valid
string, not just on the image of encode: for every string whose
characters all lie in the Bitcoin alphabet (including non-canonical
strings with zero-characters after non-zero characters), decode succeeds
and encode maps its result back to the exact original string. -/
theorem C9_encode_decode_identity (s : List Nat) (hs : ∀ c ∈ s, c ∈ BTC_ALPHA) :
    ∃ b, from_base58 s = .ok b ∧ to_base58 b = s := by
  refine ⟨_, decode_eq s hs, ?_⟩
  have hsplit : s.takeWhile (fun c => c == 49) ++ s.dropWhile (fun c => c == 49) = s :=
    List.takeWhile_append_dropWhile _ _
  have htw : s.takeWhile (fun c => c == 49)
      = List.replicate (s.takeWhile (fun c => c == 49)).length 49 := by
    apply List.eq_replicate_of_mem
    intro c hc
    simpa using List.mem_takeWhile_imp hc
  have hXu : Nat.ofDigits 58 (s.map dval).reverse
      = Nat.ofDigits 58 ((s.dropWhile (fun c => c == 49)).map dval).reverse := by
    conv_lhs => rw [← hsplit]
    rw [List.map_append, htw, List.map_replicate, show dval 49 = 0 from rfl,
      List.reverse_append, List.reverse_replicate, ofDigits_append_replicate_zero]
  by_cases hu : s.dropWhile (fun c => c == 49) = []
  · have hX0 : Nat.ofDigits 58 (s.map dval).reverse = 0 := by
      rw [hXu, hu]; rfl
    rw [hX0, Nat.digits_zero]
    simp only [List.reverse_nil, List.append_nil]
    rw [encode_replicate_zero]
    conv_rhs => rw [← hsplit, hu, List.append_nil]
    exact htw.symm
  · have hhead49 : ¬ (s.dropWhile (fun c => c == 49)).head hu = 49 := by
      have := List.head_dropWhile_not (fun c => c == 49) s (w := hu)
      simpa using this
    have humem : ∀ c ∈ s.dropWhile (fun c => c == 49), c ∈ BTC_ALPHA :=
      fun c hc => hs c (List.dropWhile_subset _ hc)
    rw [hXu, encode_of_decode_aux _ _ hu humem hhead49]
    conv_rhs => rw [← hsplit]
    congr 1
    exact htw.symm

/-- C9 witness: the theorem applied at the non-canonical input "Z1"
(bytes [90, 49]), whose zero-character follows a non-zero character. -/
theorem C9_encode_decode_identity_witness :
    (∀ c ∈ [90, 49], c ∈ BTC_ALPHA) ∧
    (∃ b, from_base58 [90, 49] = .ok b ∧ to_base58 b = [90, 49]) :=
  ⟨by decide, C9_encode_decode_identity [90, 49] (by decide)⟩
